import Mathlib

/-!
Shallow embedding of `src/html_compressor.py` (tamura-ko/html-compressor).

Python strings are modelled as `List Char` (sequences of Unicode code points);
`len(s.encode('utf-8'))` is modelled by `utf8Len`.  Fallible or possibly
diverging loops are modelled with explicit fuel returning `Option`:
`none` means the given number of loop iterations did not suffice.
-/

namespace HtmlCompressor

/-- Number of bytes of the UTF-8 encoding of one code point, as computed by
Python's `len(ch.encode('utf-8'))` for a non-surrogate code point. -/
def utf8CharLen (c : Char) : Nat :=
  if c.toNat < 0x80 then 1
  else if c.toNat < 0x800 then 2
  else if c.toNat < 0x10000 then 3
  else 4

/-- Byte length of a string under UTF-8, Python `len(s.encode('utf-8'))`. -/
def utf8Len (l : List Char) : Nat :=
  (l.map utf8CharLen).sum

/-- CPython's notion of whitespace for `str.strip`/`str.rstrip` and for the
regex class `\s` on `str` patterns (ASCII whitespace plus the Unicode
whitespace code points). -/
def isPySpace (c : Char) : Bool :=
  let n := c.toNat
  (9 ≤ n && n ≤ 13) || (28 ≤ n && n ≤ 31) || n == 32 || n == 133 || n == 160 ||
    n == 0x1680 || (0x2000 ≤ n && n ≤ 0x200A) || n == 0x2028 || n == 0x2029 ||
    n == 0x202F || n == 0x205F || n == 0x3000

/-- Python `str.rstrip()`: remove trailing whitespace. -/
def rstrip (l : List Char) : List Char :=
  (l.reverse.dropWhile isPySpace).reverse

/-- Python `str.lstrip()`: remove leading whitespace. -/
def lstrip (l : List Char) : List Char :=
  l.dropWhile isPySpace

/-- Python `str.strip()`: remove whitespace at both ends. -/
def strip (l : List Char) : List Char :=
  rstrip (lstrip l)

/-! ### `split_line_safely` (src/html_compressor.py lines 82-150)

The Python function scans the line with a mutable index `i`, a segment start
`current_start`, quote state (`in_quote`, `quote_char`, here one
`Option Char`), the last safe split position `last_safe_split_index`
(`-1` when unset, kept as an `Int` exactly like the source) and the
accumulated `result_lines`.  One iteration of the `while` loop (including the
trailing `i += 1`) is `splitStep`; the loop itself is `splitLoop`, driven by
fuel because the source loop does not terminate on every input. -/

structure SplitState where
  current_start : Nat
  i : Nat
  quote : Option Char
  last_safe : Int
  acc : List (List Char)
deriving DecidableEq

/-- Python lines 105-111: quote tracking.  `none` is `in_quote == False`;
`some q` is `in_quote == True` with `quote_char == q`. -/
def updateQuote (q : Option Char) (c : Char) : Option Char :=
  if c = '"' ∨ c = '\'' then
    match q with
    | none => some c
    | some qc => if c = qc then none else some qc
  else q

/-- One iteration of the `while i < line_len` loop of `split_line_safely`,
lines 102-144 of the source, with the final `i += 1` folded in.  Only ever
applied when `s.i < line.length`; the `getD` default is never read. -/
def splitStep (line : List Char) (max_bytes : Nat) (s : SplitState) : SplitState :=
  let char := line.getD s.i ' '
  let quote' := updateQuote s.quote char
  let last_safe := if char = '>' ∧ quote' = none then (s.i + 1 : Int) else s.last_safe
  let current_chunk := (line.take (s.i + 1)).drop s.current_start
  if utf8Len current_chunk > max_bytes then
    if last_safe > (s.current_start : Int) then
      { current_start := last_safe.toNat
        i := last_safe.toNat
        quote := quote'
        last_safe := -1
        acc := s.acc ++ [(line.take last_safe.toNat).drop s.current_start] }
    else
      { current_start := s.i
        i := s.i
        quote := quote'
        last_safe := -1
        acc := s.acc ++ [(line.take s.i).drop s.current_start] }
  else
    { s with i := s.i + 1, quote := quote', last_safe := last_safe }

/-- The `while i < line_len` loop, with fuel: `none` means the loop was still
running after `fuel` iterations (the source loop can run forever). -/
def splitLoop (line : List Char) (max_bytes : Nat) : Nat → SplitState → Option SplitState
  | fuel, s =>
    if s.i < line.length then
      match fuel with
      | 0 => none
      | fuel' + 1 => splitLoop line max_bytes fuel' (splitStep line max_bytes s)
    else some s

/-- Initial state of the scan: `current_start = 0`, `i = 0`, not in a quote,
`last_safe_split_index = -1`, no result lines yet. -/
def initSplitState : SplitState :=
  { current_start := 0, i := 0, quote := none, last_safe := -1, acc := [] }

/-- `split_line_safely(line, max_bytes)`, lines 82-150 of the source.
Returns `none` when the source loop would still be running after `fuel`
iterations. -/
def split_line_safely (fuel : Nat) (line : List Char) (max_bytes : Nat) :
    Option (List (List Char)) :=
  if utf8Len line ≤ max_bytes then some [line]
  else
    match splitLoop line max_bytes fuel initSplitState with
    | none => none
    | some s =>
      some (s.acc ++ if s.current_start < line.length then [line.drop s.current_start] else [])

/-! ### `insert_line_breaks_for_activecore` (lines 153-177) -/

/-- The body of the `for line in original_lines` loop, lines 162-175: rstrip
the line, drop it when empty, keep it verbatim when it fits the budget,
otherwise split it with `split_line_safely`.  The returned list is what the
iteration appends/extends onto `processed_lines`. -/
def processLine (fuel : Nat) (max_bytes : Nat) (l : List Char) :
    Option (List (List Char)) :=
  let l' := rstrip l
  if l' = [] then some []
  else if utf8Len l' ≤ max_bytes then some [l']
  else split_line_safely fuel l' max_bytes

/-- The whole `for` loop: concatenation of the contributions of each line,
`none` as soon as one line's split diverges past the fuel. -/
def processLines (fuel : Nat) (max_bytes : Nat) : List (List Char) → Option (List (List Char))
  | [] => some []
  | l :: rest =>
    match processLine fuel max_bytes l with
    | none => none
    | some ps =>
      match processLines fuel max_bytes rest with
      | none => none
      | some rest' => some (ps ++ rest')

/-- `insert_line_breaks_for_activecore(html, max_bytes)`, lines 153-177:
split on newlines, process every line, join with newlines. -/
def insert_line_breaks_for_activecore (fuel : Nat) (html : List Char) (max_bytes : Nat) :
    Option (List Char) :=
  match processLines fuel max_bytes (html.splitOn '\n') with
  | none => none
  | some processed_lines => some (List.intercalate ['\n'] processed_lines)

/-! ### Regex substitution passes used by the compression functions

Each `re.sub` call of the source is modelled by a dedicated scanner that
reproduces Python's leftmost, non-overlapping matching (with greedy
quantifiers over the whitespace class, whose backtracking is trivial here
because the characters delimiting each pattern are never whitespace). -/

/-- Python `re.sub(r'', '', s)`: the empty pattern matches the empty string at
every position and is replaced by the empty string, so the call returns its
input unchanged.  This is the (vacuous) "comment removal" pass of
`compress_smart`, `compress_aggressive` and `compress_complete`, whose pattern
in the source is literally empty. -/
def subEmpty (s : List Char) : List Char :=
  s

/-- Python `re.sub(r'\s+', ' ', s)`: every maximal whitespace run becomes one
space.  The scanner recurses on an explicit bound (`fuel`) so that it is
structurally recursive and computable by the kernel; with `fuel = s.length`
(see `collapseWs`) the bound is never exhausted, since every step consumes at
least one character. -/
def collapseWsGo : Nat → List Char → List Char
  | _, [] => []
  | 0, l => l
  | fuel + 1, c :: rest =>
    if isPySpace c then ' ' :: collapseWsGo fuel (rest.dropWhile isPySpace)
    else c :: collapseWsGo fuel rest

def collapseWs (s : List Char) : List Char :=
  collapseWsGo s.length s

/-- Python `re.sub(r'[ \t]+', ' ', s)`: every maximal run of spaces and tabs
(newlines excluded) becomes one space.  Pass 2 of `compress_smart`. -/
def collapseSpaceTabGo : Nat → List Char → List Char
  | _, [] => []
  | 0, l => l
  | fuel + 1, c :: rest =>
    if c = ' ' ∨ c = '\t' then
      ' ' :: collapseSpaceTabGo fuel (rest.dropWhile (fun d => d = ' ' || d = '\t'))
    else c :: collapseSpaceTabGo fuel rest

def collapseSpaceTab (s : List Char) : List Char :=
  collapseSpaceTabGo s.length s

/-- Python `re.sub(r'>\s+<', '><', s)`: a `>` followed by a nonempty
whitespace run followed by `<` becomes `><`; scanning resumes after the
consumed `<`. -/
def subGtWsLtGo : Nat → List Char → List Char
  | _, [] => []
  | 0, l => l
  | fuel + 1, c :: rest =>
    if c = '>' then
      match rest.dropWhile isPySpace, rest.takeWhile isPySpace with
      | '<' :: r2, _ :: _ => '>' :: '<' :: subGtWsLtGo fuel r2
      | _, _ => c :: subGtWsLtGo fuel rest
    else c :: subGtWsLtGo fuel rest

def subGtWsLt (s : List Char) : List Char :=
  subGtWsLtGo s.length s

/-- Python `re.sub(r'\s*=\s*', '=', s)`: optional whitespace, `=`, optional
whitespace become a bare `=`. -/
def subEqWsGo : Nat → List Char → List Char
  | _, [] => []
  | 0, l => l
  | fuel + 1, c :: rest =>
    match (c :: rest).dropWhile isPySpace with
    | '=' :: r2 => '=' :: subEqWsGo fuel (r2.dropWhile isPySpace)
    | _ => c :: subEqWsGo fuel rest

def subEqWs (s : List Char) : List Char :=
  subEqWsGo s.length s

/-- Python `re.sub(r'\s+>', '>', s)`: a nonempty whitespace run directly
before a `>` is deleted. -/
def subWsGtGo : Nat → List Char → List Char
  | _, [] => []
  | 0, l => l
  | fuel + 1, c :: rest =>
    if isPySpace c then
      match rest.dropWhile isPySpace with
      | '>' :: r2 => '>' :: subWsGtGo fuel r2
      | _ => c :: subWsGtGo fuel rest
    else c :: subWsGtGo fuel rest

def subWsGt (s : List Char) : List Char :=
  subWsGtGo s.length s

/-- Python `re.sub(t + r'\s+', t, s)` for a non-whitespace character `t`: a
nonempty whitespace run directly after `t` is deleted.  Used with `<`
(pattern `<\s+`), `;` (pattern `;\s+`) and `,` (pattern `,\s+`) in
`compress_complete`. -/
def subCharWsGo (t : Char) : Nat → List Char → List Char
  | _, [] => []
  | 0, l => l
  | fuel + 1, c :: rest =>
    if c = t then
      match rest.takeWhile isPySpace with
      | _ :: _ => t :: subCharWsGo t fuel (rest.dropWhile isPySpace)
      | [] => c :: subCharWsGo t fuel rest
    else c :: subCharWsGo t fuel rest

def subCharWs (t : Char) (s : List Char) : List Char :=
  subCharWsGo t s.length s

/-- Helper for `collapseBlankLines`: split a list at its last `'\n'`,
returning the parts before and after it, or `none` when it has no `'\n'`. -/
def splitLastNl : List Char → Option (List Char × List Char)
  | [] => none
  | c :: rest =>
    match splitLastNl rest with
    | some (a1, a2) => some (c :: a1, a2)
    | none => if c = '\n' then some ([], rest) else none

/-- Python `re.sub(r'\n\s*\n', '\n', s)`: a newline, a greedy whitespace run
and a final newline collapse to one newline; the match extends to the last
newline inside the whitespace run (`\s*` is greedy and backtracks only to
reach the closing `\n`), and scanning resumes after it.  Pass 4 of
`compress_smart`. -/
def collapseBlankLinesGo : Nat → List Char → List Char
  | _, [] => []
  | 0, l => l
  | fuel + 1, c :: rest =>
    if c = '\n' then
      match splitLastNl (rest.takeWhile isPySpace) with
      | some (_, a2) => '\n' :: collapseBlankLinesGo fuel (a2 ++ rest.dropWhile isPySpace)
      | none => c :: collapseBlankLinesGo fuel rest
    else c :: collapseBlankLinesGo fuel rest

def collapseBlankLines (s : List Char) : List Char :=
  collapseBlankLinesGo s.length s


/-- `compress_smart(html)`, lines 194-207 of the source.  The comment-removal
`re.sub` on line 198 has a literally empty pattern and is the identity; the
remaining passes are space/tab collapsing, per-line strip joined by newlines,
blank-line collapsing, and a final strip. -/
def compress_smart (html : List Char) : List Char :=
  let r1 := subEmpty html
  let r2 := collapseSpaceTab r1
  let r3 := List.intercalate ['\n'] ((r2.splitOn '\n').map strip)
  let r4 := collapseBlankLines r3
  strip r4

/-- `compress_complete(html)`, lines 222-233 of the source: identity comment
pass (empty pattern), whitespace-run collapapse to one space, `>\s+<` → `><`,
`\s*=\s*` → `=`, `\s+>` → `>`, `<\s+` → `<`, `;\s+` → `;`, `,\s+` → `,`,
then strip. -/
def compress_complete (html : List Char) : List Char :=
  let r1 := subEmpty html
  let r2 := collapseWs r1
  let r3 := subGtWsLt r2
  let r4 := subEqWs r3
  let r5 := subWsGt r4
  let r6 := subCharWs '<' r5
  let r7 := subCharWs ';' r6
  let r8 := subCharWs ',' r7
  strip r8

/-! ### `compress_header_only` (lines 182-192) -/

/-- Python `str.lower` restricted to ASCII letters; the letters of the
`<head>` patterns are ASCII, so `re.IGNORECASE` matching reduces to this. -/
def toLowerAscii (c : Char) : Char :=
  if 'A' ≤ c ∧ c ≤ 'Z' then Char.ofNat (c.toNat + 32) else c

/-- Case-insensitive match of the all-lowercase literal `pat` at the front of
`s`. -/
def matchesCI (pat s : List Char) : Bool :=
  (s.take pat.length).map toLowerAscii == pat

/-- Index of the first case-insensitive occurrence of the literal `pat`
in `s`, as found by `re.search` with `re.IGNORECASE`. -/
def findCI (pat : List Char) : List Char → Option Nat
  | [] => if matchesCI pat [] then some 0 else none
  | c :: rest =>
    if matchesCI pat (c :: rest) then some 0
    else (findCI pat rest).map (· + 1)

/-- Python `str.replace(old, new)`: every non-overlapping occurrence of
`old`, scanning left to right, is replaced by `new`.  (`old` is never empty
where this is used; for an empty `old` this model returns `s` unchanged.) -/
def strReplaceGo (old new : List Char) : Nat → List Char → List Char
  | _, [] => []
  | 0, s => s
  | fuel + 1, c :: rest =>
    if old ≠ [] ∧ old.isPrefixOf (c :: rest) then
      new ++ strReplaceGo old new fuel ((c :: rest).drop old.length)
    else c :: strReplaceGo old new fuel rest

def strReplace (s old new : List Char) : List Char :=
  strReplaceGo old new s.length s

def headOpenPat : List Char :=
  "<head>".data

def headClosePat : List Char :=
  "</head>".data

/-- The `re.search(r'<head>(.*?)</head>', html, re.DOTALL | re.IGNORECASE)`
of line 184 together with lines 187-190: the leftmost match starts at the
first case-insensitive `<head>` (a match exists iff a case-insensitive
`</head>` follows it; non-greedy `.*?` ends the match at the first such
`</head>`).  Returns `group(0)` (original casing preserved) and the
replacement string `'<head>' + compressed_head + '</head>'`, whose passes are
lines 188-190: whitespace collapapse, `>\s+<` → `><`, strip. -/
def headMatch (html : List Char) : Option (List Char × List Char) :=
  match findCI headOpenPat html with
  | none => none
  | some p =>
    match findCI headClosePat ((html.drop p).drop headOpenPat.length) with
    | none => none
    | some d =>
      let head_content := ((html.drop p).drop headOpenPat.length).take d
      let group0 := (html.drop p).take (headOpenPat.length + d + headClosePat.length)
      let compressed_head := strip (subGtWsLt (collapseWs head_content))
      some (group0, headOpenPat ++ compressed_head ++ headClosePat)

/-- `compress_header_only(html)`, lines 182-192: if the head span is absent
return the input unchanged, otherwise replace — via `str.replace`, hence
every occurrence of — the matched span text by the compressed span. -/
def compress_header_only (html : List Char) : List Char :=
  match headMatch html with
  | none => html
  | some (group0, replacement) => strReplace html group0 replacement

/-- `calculate_compression_ratio(original, compressed)`, lines 312-317.
The reduction may be negative, so it is an `Int`; the percentage is the exact
rational the float computation approximates, and is `0` when the original is
empty (the source guards the division with `if original_size > 0 else 0`). -/
def calculate_compression_ratio (original compressed : List Char) :
    Nat × Nat × Int × ℚ :=
  let original_size := utf8Len original
  let compressed_size := utf8Len compressed
  let reduction : Int := (original_size : Int) - (compressed_size : Int)
  let ratio : ℚ := if original_size > 0 then (reduction : ℚ) / (original_size : ℚ) * 100 else 0
  (original_size, compressed_size, reduction, ratio)

/-! ### Basic facts about byte lengths, slices and `splitOn` -/

theorem utf8Len_append (a b : List Char) : utf8Len (a ++ b) = utf8Len a + utf8Len b := by
  simp [utf8Len]

theorem one_le_utf8CharLen (c : Char) : 1 ≤ utf8CharLen c := by
  unfold utf8CharLen
  split_ifs <;> omega

theorem utf8Len_sublist_le {a b : List Char} (h : a.Sublist b) : utf8Len a ≤ utf8Len b :=
  (h.map utf8CharLen).sum_le_sum (by simp)

theorem utf8Len_infix_le {a b : List Char} (h : a <:+: b) : utf8Len a ≤ utf8Len b :=
  utf8Len_sublist_le h.sublist

/-- A slice `line[a:t]` of the scanner is a contiguous part of the line. -/
theorem slice_infix (line : List Char) (a t : Nat) : (line.take t).drop a <:+: line :=
  ((List.drop_suffix a (line.take t)).isInfix).trans ((List.take_prefix t line).isInfix)

theorem slice_mono (line : List Char) (a t i : Nat) (ht : t ≤ i) :
    utf8Len ((line.take t).drop a) ≤ utf8Len ((line.take i).drop a) := by
  apply utf8Len_sublist_le
  rw [List.drop_take t a line, List.drop_take i a line]
  have h1 : (line.drop a).take (t - a) = ((line.drop a).take (i - a)).take (t - a) := by
    rw [List.take_take, Nat.min_eq_left (by omega)]
  rw [h1]
  exact (List.take_prefix _ _).sublist

/-- Extending the current chunk by the character under scan. -/
theorem slice_snoc (line : List Char) (a i : Nat) (ha : a ≤ i) (hi : i < line.length) :
    (line.take (i + 1)).drop a = (line.take i).drop a ++ [line.getD i ' '] := by
  rw [List.take_succ, List.getElem?_eq_getElem hi, List.getD_eq_getElem line ' ' hi]
  rw [List.drop_append_of_le_length]
  · rfl
  · rw [List.length_take]
    omega

theorem slice_self_nil (line : List Char) (n : Nat) : (line.take n).drop n = [] :=
  List.drop_eq_nil_of_le (by simp)

/-- Elements produced by `splitOnP` never satisfy the splitting predicate. -/
theorem splitOnP_sep_not {α : Type} {p : α → Bool} :
    ∀ {xs l : List α}, l ∈ xs.splitOnP p → ∀ x ∈ l, ¬ p x := by
  intro xs
  induction xs with
  | nil =>
    intro l hl
    rw [List.splitOnP_nil] at hl
    simp only [List.mem_singleton] at hl
    subst hl
    simp
  | cons c rest ih =>
    intro l hl
    rw [List.splitOnP_cons] at hl
    by_cases hc : p c
    · rw [if_pos hc] at hl
      rcases List.mem_cons.mp hl with h | h
      · subst h; simp
      · exact ih h
    · rw [if_neg hc] at hl
      cases hrec : rest.splitOnP p with
      | nil => exact absurd hrec (List.splitOnP_ne_nil _ _)
      | cons r rs =>
        rw [hrec] at hl
        simp only [List.modifyHead] at hl
        rcases List.mem_cons.mp hl with h | h
        · subst h
          intro x hx
          rcases List.mem_cons.mp hx with h' | h'
          · subst h'; exact hc
          · exact ih (by rw [hrec]; exact List.mem_cons_self r rs) x h'
        · exact ih (by rw [hrec]; exact List.mem_cons_of_mem r h)

/-- Lines produced by splitting on a separator do not contain it. -/
theorem splitOn_sep_not_mem {α : Type} [DecidableEq α] {a : α} {xs l : List α}
    (h : l ∈ xs.splitOn a) : a ∉ l := by
  intro hmem
  exact splitOnP_sep_not h a hmem (by simp)

/-- `rstrip` only removes characters from the end. -/
theorem rstrip_prefix_self (l : List Char) : (rstrip l) <+: l := by
  have h := List.dropWhile_suffix (l := l.reverse) isPySpace
  have h2 := List.reverse_prefix.mpr h
  rwa [List.reverse_reverse] at h2

/-! ### Invariant of the `split_line_safely` scan loop -/

/-- What stays true at the top of every iteration of the `while` loop of
`split_line_safely`: the segment start is behind the scan position, the scan
position is inside the line, the recorded safe split position is behind the
scan position, the current chunk fits the budget, and every line already
emitted is a contiguous piece of the input of at most `B + 1` bytes. -/
structure LoopInv (line : List Char) (B : Nat) (s : SplitState) : Prop where
  hstart : s.current_start ≤ s.i
  hi : s.i ≤ line.length
  hsafe : s.last_safe ≤ (s.i : Int)
  hchunk : utf8Len ((line.take s.i).drop s.current_start) ≤ B
  hacc : ∀ p ∈ s.acc, utf8Len p ≤ B + 1 ∧ p <:+: line

theorem initSplitState_inv (line : List Char) (B : Nat) : LoopInv line B initSplitState := by
  refine ⟨Nat.le_refl 0, Nat.zero_le _, by simp [initSplitState], ?_, ?_⟩
  · simp [initSplitState, utf8Len]
  · simp [initSplitState]

theorem splitStep_inv {line : List Char} {B : Nat} {s : SplitState}
    (hlt : s.i < line.length) (h : LoopInv line B s) :
    LoopInv line B (splitStep line B s) := by
  obtain ⟨hstart, hi, hsafe, hchunk, hacc⟩ := h
  unfold splitStep
  dsimp only
  set char := line.getD s.i ' ' with hchar
  set quote' := updateQuote s.quote char with hquote
  set L := (if char = '>' ∧ quote' = none then ((s.i : Int) + 1) else s.last_safe) with hL
  have hL1 : L ≤ (s.i : Int) + 1 := by
    rw [hL]; split_ifs
    · exact le_refl _
    · exact le_trans hsafe (by omega)
  have hLcases : L ≤ (s.i : Int) ∨ (L = (s.i : Int) + 1 ∧ char = '>') := by
    rw [hL]; split_ifs with hg
    · exact Or.inr ⟨rfl, hg.1⟩
    · exact Or.inl hsafe
  by_cases hov : utf8Len ((line.take (s.i + 1)).drop s.current_start) > B
  · rw [if_pos hov]
    by_cases hcut : L > (s.current_start : Int)
    · rw [if_pos hcut]
      have htnn : (0 : Int) ≤ L := le_trans (Int.natCast_nonneg _) (le_of_lt hcut)
      have ht : (L.toNat : Int) = L := Int.toNat_of_nonneg htnn
      have htle : L.toNat ≤ s.i + 1 := by omega
      have hpiece : utf8Len ((line.take L.toNat).drop s.current_start) ≤ B + 1 := by
        rcases hLcases with hle | ⟨heq, hgt⟩
        · have h2 : L.toNat ≤ s.i := by omega
          exact le_trans (slice_mono line s.current_start L.toNat s.i h2)
            (le_trans hchunk (Nat.le_succ B))
        · have ht1 : L.toNat = s.i + 1 := by omega
          rw [ht1, slice_snoc line s.current_start s.i hstart hlt, utf8Len_append]
          have hglen : utf8Len [char] = 1 := by rw [hgt]; rfl
          rw [← hchar, hglen]
          omega
      refine ⟨le_refl _, ?_, ?_, ?_, ?_⟩
      · show L.toNat ≤ line.length
        omega
      · show (-1 : Int) ≤ (L.toNat : Int)
        exact le_trans (by norm_num) (Int.natCast_nonneg _)
      · show utf8Len ((line.take L.toNat).drop L.toNat) ≤ B
        rw [slice_self_nil]
        simp [utf8Len]
      · show ∀ p ∈ s.acc ++ [(line.take L.toNat).drop s.current_start],
            utf8Len p ≤ B + 1 ∧ p <:+: line
        intro p hp
        rcases List.mem_append.mp hp with hm | hm
        · exact hacc p hm
        · rw [List.mem_singleton] at hm; subst hm
          exact ⟨hpiece, slice_infix _ _ _⟩
    · rw [if_neg hcut]
      refine ⟨le_refl _, le_of_lt hlt, ?_, ?_, ?_⟩
      · show (-1 : Int) ≤ (s.i : Int)
        exact le_trans (by norm_num) (Int.natCast_nonneg _)
      · show utf8Len ((line.take s.i).drop s.i) ≤ B
        rw [slice_self_nil]
        simp [utf8Len]
      · show ∀ p ∈ s.acc ++ [(line.take s.i).drop s.current_start],
            utf8Len p ≤ B + 1 ∧ p <:+: line
        intro p hp
        rcases List.mem_append.mp hp with hm | hm
        · exact hacc p hm
        · rw [List.mem_singleton] at hm; subst hm
          exact ⟨le_trans hchunk (Nat.le_succ B), slice_infix _ _ _⟩
  · rw [if_neg hov]
    push_neg at hov
    refine ⟨Nat.le_succ_of_le hstart, hlt, ?_, hov, hacc⟩
    show L ≤ ((s.i + 1 : Nat) : Int)
    exact_mod_cast hL1

theorem splitLoop_inv {line : List Char} {B : Nat} :
    ∀ (fuel : Nat) (s s' : SplitState), LoopInv line B s →
      splitLoop line B fuel s = some s' → LoopInv line B s' ∧ line.length ≤ s'.i := by
  intro fuel
  induction fuel with
  | zero =>
    intro s s' hinv hrun
    unfold splitLoop at hrun
    by_cases hlt : s.i < line.length
    · rw [if_pos hlt] at hrun
      exact absurd hrun (by simp)
    · rw [if_neg hlt] at hrun
      rw [Option.some_inj] at hrun; subst hrun
      exact ⟨hinv, le_of_not_lt hlt⟩
  | succ n ih =>
    intro s s' hinv hrun
    unfold splitLoop at hrun
    by_cases hlt : s.i < line.length
    · rw [if_pos hlt] at hrun
      exact ih _ _ (splitStep_inv hlt hinv) hrun
    · rw [if_neg hlt] at hrun
      rw [Option.some_inj] at hrun; subst hrun
      exact ⟨hinv, le_of_not_lt hlt⟩

/-- Everything `split_line_safely` emits is a contiguous piece of the input
line of at most `max_bytes + 1` bytes (the `+ 1` is attained, see the C1
counterexample). -/
theorem split_line_safely_spec {fuel : Nat} {line : List Char} {B : Nat}
    {ps : List (List Char)} (h : split_line_safely fuel line B = some ps) :
    ∀ p ∈ ps, utf8Len p ≤ B + 1 ∧ p <:+: line := by
  unfold split_line_safely at h
  split_ifs at h with hfit
  · rw [Option.some_inj] at h; subst h
    intro p hp
    rw [List.mem_singleton] at hp; subst hp
    exact ⟨le_trans hfit (Nat.le_succ B), List.infix_refl _⟩
  · cases hrun : splitLoop line B fuel initSplitState with
    | none =>
      rw [hrun] at h
      exact absurd h (by simp)
    | some s =>
      rw [hrun] at h
      rw [Option.some_inj] at h; subst h
      obtain ⟨hinv, hil⟩ := splitLoop_inv fuel _ s (initSplitState_inv line B) hrun
      intro p hp
      rcases List.mem_append.mp hp with hmem | hmem
      · exact hinv.hacc p hmem
      · split_ifs at hmem with hrem
        · rw [List.mem_singleton] at hmem; subst hmem
          constructor
          · have hieq : s.i = line.length := le_antisymm hinv.hi hil
            have h2 := hinv.hchunk
            rw [hieq, List.take_length] at h2
            exact le_trans h2 (Nat.le_succ B)
          · exact (List.drop_suffix _ _).isInfix
        · simp at hmem

/-! ### From the loop to the entry point -/

theorem processLine_spec {fuel B : Nat} {l : List Char} {c : List (List Char)}
    (h : processLine fuel B l = some c) :
    ∀ p ∈ c, utf8Len p ≤ B + 1 ∧ p <:+: l := by
  unfold processLine at h
  dsimp only at h
  split_ifs at h with h1 h2
  · rw [Option.some_inj] at h; subst h
    simp
  · rw [Option.some_inj] at h; subst h
    intro p hp
    rw [List.mem_singleton] at hp; subst hp
    exact ⟨le_trans h2 (Nat.le_succ B), (rstrip_prefix_self l).isInfix⟩
  · intro p hp
    obtain ⟨hb, hin⟩ := split_line_safely_spec h p hp
    exact ⟨hb, hin.trans (rstrip_prefix_self l).isInfix⟩

theorem processLines_mem {fuel B : Nat} :
    ∀ {ls ps : List (List Char)}, processLines fuel B ls = some ps →
      ∀ p ∈ ps, ∃ l ∈ ls, ∃ c, processLine fuel B l = some c ∧ p ∈ c := by
  intro ls
  induction ls with
  | nil =>
    intro ps h p hp
    unfold processLines at h
    rw [Option.some_inj] at h; subst h
    simp at hp
  | cons l rest ih =>
    intro ps h p hp
    unfold processLines at h
    cases h1 : processLine fuel B l with
    | none => rw [h1] at h; exact absurd h (by simp)
    | some c =>
      rw [h1] at h
      cases h2 : processLines fuel B rest with
      | none => rw [h2] at h; exact absurd h (by simp)
      | some restPs =>
        rw [h2] at h
        rw [Option.some_inj] at h; subst h
        rcases List.mem_append.mp hp with hm | hm
        · exact ⟨l, List.mem_cons_self _ _, c, h1, hm⟩
        · obtain ⟨l', hl', c', hc', hm'⟩ := ih h2 p hm
          exact ⟨l', List.mem_cons_of_mem _ hl', c', hc', hm'⟩

theorem processLines_mem_line {fuel B : Nat} :
    ∀ {ls ps : List (List Char)}, processLines fuel B ls = some ps →
      ∀ l ∈ ls, ∃ c, processLine fuel B l = some c ∧ ∀ p ∈ c, p ∈ ps := by
  intro ls
  induction ls with
  | nil =>
    intro ps h l hl
    simp at hl
  | cons l0 rest ih =>
    intro ps h l hl
    unfold processLines at h
    cases h1 : processLine fuel B l0 with
    | none => rw [h1] at h; exact absurd h (by simp)
    | some c =>
      rw [h1] at h
      cases h2 : processLines fuel B rest with
      | none => rw [h2] at h; exact absurd h (by simp)
      | some restPs =>
        rw [h2] at h
        rw [Option.some_inj] at h; subst h
        rcases List.mem_cons.mp hl with hm | hm
        · subst hm
          exact ⟨c, h1, fun p hp => List.mem_append.mpr (Or.inl hp)⟩
        · obtain ⟨c', hc', hsub⟩ := ih h2 l hm
          exact ⟨c', hc', fun p hp => List.mem_append.mpr (Or.inr (hsub p hp))⟩

theorem insert_eq {fuel B : Nat} {html out : List Char}
    (h : insert_line_breaks_for_activecore fuel html B = some out) :
    ∃ ps, processLines fuel B (html.splitOn '\n') = some ps ∧
      out = List.intercalate ['\n'] ps := by
  unfold insert_line_breaks_for_activecore at h
  cases h1 : processLines fuel B (html.splitOn '\n') with
  | none => rw [h1] at h; exact absurd h (by simp)
  | some ps =>
    rw [h1] at h
    rw [Option.some_inj] at h
    exact ⟨ps, rfl, h.symm⟩

/-- Pieces coming out of the per-line processing contain no newline. -/
theorem processLines_pieces_nl {fuel B : Nat} {html : List Char} {ps : List (List Char)}
    (hps : processLines fuel B (html.splitOn '\n') = some ps) :
    ∀ p ∈ ps, '\n' ∉ p := by
  intro p hp hmem
  obtain ⟨l, hl, c, hc, hm⟩ := processLines_mem hps p hp
  obtain ⟨_, hin⟩ := processLine_spec hc p hm
  exact splitOn_sep_not_mem hl (hin.sublist.subset hmem)

/-- Re-splitting the joined output recovers exactly the emitted pieces. -/
theorem insert_lines_eq {fuel B : Nat} {html out : List Char} {ps : List (List Char)}
    (hps : processLines fuel B (html.splitOn '\n') = some ps)
    (hout : out = List.intercalate ['\n'] ps) (hne : ps ≠ []) :
    out.splitOn '\n' = ps := by
  subst hout
  exact List.splitOn_intercalate ps '\n' (processLines_pieces_nl hps) hne

/-- Master description of the entry point's output lines: each one is at most
`max_bytes + 1` bytes and is a contiguous piece of a single input line. -/
theorem output_lines {fuel B : Nat} {html out : List Char}
    (h : insert_line_breaks_for_activecore fuel html B = some out) :
    ∀ q ∈ out.splitOn '\n', utf8Len q ≤ B + 1 ∧ ∃ l ∈ html.splitOn '\n', q <:+: l := by
  obtain ⟨ps, hps, hout⟩ := insert_eq h
  have hall : ∀ p ∈ ps, utf8Len p ≤ B + 1 ∧ ∃ l ∈ html.splitOn '\n', p <:+: l := by
    intro p hp
    obtain ⟨l, hl, c, hc, hm⟩ := processLines_mem hps p hp
    obtain ⟨hb, hin⟩ := processLine_spec hc p hm
    exact ⟨hb, l, hl, hin⟩
  cases hpe : ps with
  | nil =>
    subst hout
    rw [hpe]
    intro q hq
    have hq' : q = [] := by
      simpa [List.intercalate, List.splitOn_nil] using hq
    subst hq'
    refine ⟨by simp [utf8Len], ?_⟩
    cases hsp : html.splitOn '\n' with
    | nil => exact absurd hsp (List.splitOnP_ne_nil _ _)
    | cons l ls => exact ⟨l, List.mem_cons_self _ _, List.nil_infix⟩
  | cons p0 ps' =>
    rw [insert_lines_eq hps hout (by rw [hpe]; simp)]
    exact hall

/-! ### Divergence of the scan on an oversized leading code point -/

/-- When the first character of the line is not `>` and on its own already
exceeds the budget, the forced-cut branch fires with `i == current_start == 0`,
appends the empty slice and puts the scanner back into exactly the same
position: the `while` loop of `split_line_safely` never terminates. -/
theorem splitLoop_stuck {B : Nat} {c : Char} {rest : List Char}
    (hne : c ≠ '>') (hbig : B < utf8CharLen c) :
    ∀ (fuel : Nat) (s : SplitState), s.i = 0 → s.current_start = 0 → s.last_safe ≤ 0 →
      splitLoop (c :: rest) B fuel s = none := by
  intro fuel
  induction fuel with
  | zero =>
    intro s hi hcs hls
    unfold splitLoop
    rw [if_pos (by rw [hi]; simp)]
  | succ n ih =>
    intro s hi hcs hls
    unfold splitLoop
    rw [if_pos (by rw [hi]; simp)]
    have hstep : splitStep (c :: rest) B s =
        { current_start := 0, i := 0, quote := updateQuote s.quote c,
          last_safe := -1, acc := s.acc ++ [[]] } := by
      unfold splitStep
      dsimp only
      rw [hi, hcs]
      have hch : (c :: rest).getD 0 ' ' = c := rfl
      rw [hch]
      rw [if_neg (show ¬(c = '>' ∧ updateQuote s.quote c = none) by simp [hne])]
      have h1 : ((c :: rest).take (0 + 1)).drop 0 = [c] := by simp
      rw [h1]
      rw [if_pos (show utf8Len [c] > B by simpa [utf8Len] using hbig)]
      rw [if_neg (show ¬(s.last_safe > ((0 : Nat) : Int)) by omega)]
      rfl
    rw [hstep]
    exact ih _ rfl rfl (by norm_num)

/-- `split_line_safely` returns no result, for any amount of fuel, when the
line is over budget and starts with a non-`>` character whose own encoding
exceeds the budget. -/
theorem split_line_safely_stuck {B : Nat} {c : Char} {rest : List Char}
    (hne : c ≠ '>') (hbig : B < utf8CharLen c) (hover : B < utf8Len (c :: rest)) :
    ∀ fuel : Nat, split_line_safely fuel (c :: rest) B = none := by
  intro fuel
  unfold split_line_safely
  rw [if_neg (by omega)]
  rw [splitLoop_stuck hne hbig fuel initSplitState rfl rfl (by decide)]

/-! ### Byte-length monotonicity of the `compress_complete` passes -/

theorem utf8Len_cons (c : Char) (l : List Char) :
    utf8Len (c :: l) = utf8CharLen c + utf8Len l := by
  simp [utf8Len]

theorem utf8Len_dropWhile_le (p : Char → Bool) (l : List Char) :
    utf8Len (l.dropWhile p) ≤ utf8Len l :=
  utf8Len_sublist_le (List.dropWhile_sublist _)

theorem utf8Len_rstrip_le (l : List Char) : utf8Len (rstrip l) ≤ utf8Len l :=
  utf8Len_sublist_le (rstrip_prefix_self l).sublist

theorem utf8Len_strip_le (l : List Char) : utf8Len (strip l) ≤ utf8Len l :=
  le_trans (utf8Len_rstrip_le _) (utf8Len_dropWhile_le _ l)

set_option maxHeartbeats 1000000 in
theorem utf8Len_collapseWsGo_le :
    ∀ (fuel : Nat) (l : List Char), utf8Len (collapseWsGo fuel l) ≤ utf8Len l := by
  intro fuel
  induction fuel with
  | zero =>
    intro l
    cases l <;> simp [collapseWsGo]
  | succ n ih =>
    intro l
    cases l with
    | nil => simp [collapseWsGo]
    | cons c rest =>
      simp only [collapseWsGo]
      by_cases hc : isPySpace c = true
      · rw [if_pos hc]
        simp only [utf8Len_cons]
        have h1 := ih (rest.dropWhile isPySpace)
        have h2 : utf8Len (rest.dropWhile isPySpace) ≤ utf8Len rest :=
          utf8Len_dropWhile_le _ _
        have h3 := one_le_utf8CharLen c
        have h4 : utf8CharLen ' ' = 1 := rfl
        omega
      · rw [if_neg hc]
        simp only [utf8Len_cons]
        have := ih rest
        omega

theorem utf8Len_collapseWs_le (l : List Char) : utf8Len (collapseWs l) ≤ utf8Len l :=
  utf8Len_collapseWsGo_le l.length l

set_option maxHeartbeats 1000000 in
theorem utf8Len_subGtWsLtGo_le :
    ∀ (fuel : Nat) (l : List Char), utf8Len (subGtWsLtGo fuel l) ≤ utf8Len l := by
  intro fuel
  induction fuel with
  | zero =>
    intro l
    cases l <;> simp [subGtWsLtGo]
  | succ n ih =>
    intro l
    cases l with
    | nil => simp [subGtWsLtGo]
    | cons c rest =>
      simp only [subGtWsLtGo]
      by_cases hc : c = '>'
      · rw [if_pos hc]
        subst hc
        split
        · rename_i r2 head tail heq1 heq2
          have hr : rest.takeWhile isPySpace ++ rest.dropWhile isPySpace = rest :=
            List.takeWhile_append_dropWhile _ _
          rw [heq1, heq2] at hr
          have hlen : utf8Len (head :: tail) + utf8Len ('<' :: r2) = utf8Len rest := by
            rw [← utf8Len_append, hr]
          simp only [utf8Len_cons] at hlen ⊢
          have h4 := one_le_utf8CharLen head
          have h5 : utf8CharLen '>' = 1 := rfl
          have h6 : utf8CharLen '<' = 1 := rfl
          have h7 := ih r2
          omega
        · simp only [utf8Len_cons]
          have := ih rest
          omega
      · rw [if_neg hc]
        simp only [utf8Len_cons]
        have := ih rest
        omega

theorem utf8Len_subGtWsLt_le (l : List Char) : utf8Len (subGtWsLt l) ≤ utf8Len l :=
  utf8Len_subGtWsLtGo_le l.length l

set_option maxHeartbeats 1000000 in
theorem utf8Len_subEqWsGo_le :
    ∀ (fuel : Nat) (l : List Char), utf8Len (subEqWsGo fuel l) ≤ utf8Len l := by
  intro fuel
  induction fuel with
  | zero =>
    intro l
    cases l <;> simp [subEqWsGo]
  | succ n ih =>
    intro l
    cases l with
    | nil => simp [subEqWsGo]
    | cons c rest =>
      simp only [subEqWsGo]
      split
      · rename_i r2 heq1
        have hr : (c :: rest).takeWhile isPySpace ++ (c :: rest).dropWhile isPySpace
            = c :: rest := List.takeWhile_append_dropWhile _ _
        rw [heq1] at hr
        have hlen : utf8Len ((c :: rest).takeWhile isPySpace) + utf8Len ('=' :: r2)
            = utf8Len (c :: rest) := by
          rw [← utf8Len_append, hr]
        simp only [utf8Len_cons] at hlen ⊢
        have h2 := ih (r2.dropWhile isPySpace)
        have h3 : utf8Len (r2.dropWhile isPySpace) ≤ utf8Len r2 := utf8Len_dropWhile_le _ _
        have h4 : utf8CharLen '=' = 1 := rfl
        omega
      · simp only [utf8Len_cons]
        have := ih rest
        omega

theorem utf8Len_subEqWs_le (l : List Char) : utf8Len (subEqWs l) ≤ utf8Len l :=
  utf8Len_subEqWsGo_le l.length l

set_option maxHeartbeats 1000000 in
theorem utf8Len_subWsGtGo_le :
    ∀ (fuel : Nat) (l : List Char), utf8Len (subWsGtGo fuel l) ≤ utf8Len l := by
  intro fuel
  induction fuel with
  | zero =>
    intro l
    cases l <;> simp [subWsGtGo]
  | succ n ih =>
    intro l
    cases l with
    | nil => simp [subWsGtGo]
    | cons c rest =>
      simp only [subWsGtGo]
      by_cases hc : isPySpace c = true
      · rw [if_pos hc]
        split
        · rename_i r2 heq1
          have hr : rest.takeWhile isPySpace ++ rest.dropWhile isPySpace = rest :=
            List.takeWhile_append_dropWhile _ _
          rw [heq1] at hr
          have hlen : utf8Len (rest.takeWhile isPySpace) + utf8Len ('>' :: r2)
              = utf8Len rest := by
            rw [← utf8Len_append, hr]
          simp only [utf8Len_cons] at hlen ⊢
          have h2 := ih r2
          have h3 := one_le_utf8CharLen c
          have h4 : utf8CharLen '>' = 1 := rfl
          omega
        · simp only [utf8Len_cons]
          have := ih rest
          omega
      · rw [if_neg hc]
        simp only [utf8Len_cons]
        have := ih rest
        omega

theorem utf8Len_subWsGt_le (l : List Char) : utf8Len (subWsGt l) ≤ utf8Len l :=
  utf8Len_subWsGtGo_le l.length l

set_option maxHeartbeats 1000000 in
theorem utf8Len_subCharWsGo_le (t : Char) :
    ∀ (fuel : Nat) (l : List Char), utf8Len (subCharWsGo t fuel l) ≤ utf8Len l := by
  intro fuel
  induction fuel with
  | zero =>
    intro l
    cases l <;> simp [subCharWsGo]
  | succ n ih =>
    intro l
    cases l with
    | nil => simp [subCharWsGo]
    | cons c rest =>
      simp only [subCharWsGo]
      by_cases hc : c = t
      · rw [if_pos hc]
        subst hc
        split
        · rename_i head tail heq1
          simp only [utf8Len_cons]
          have h1 := ih (rest.dropWhile isPySpace)
          have h2 : utf8Len (rest.dropWhile isPySpace) ≤ utf8Len rest :=
            utf8Len_dropWhile_le _ _
          omega
        · simp only [utf8Len_cons]
          have := ih rest
          omega
      · rw [if_neg hc]
        simp only [utf8Len_cons]
        have := ih rest
        omega

theorem utf8Len_subCharWs_le (t : Char) (l : List Char) :
    utf8Len (subCharWs t l) ≤ utf8Len l :=
  utf8Len_subCharWsGo_le t l.length l

theorem compress_complete_le (html : List Char) :
    utf8Len (compress_complete html) ≤ utf8Len html := by
  unfold compress_complete subEmpty
  dsimp only
  calc utf8Len (strip (subCharWs ',' (subCharWs ';' (subCharWs '<' (subWsGt (subEqWs
          (subGtWsLt (collapseWs html))))))))
      ≤ utf8Len (subCharWs ',' (subCharWs ';' (subCharWs '<' (subWsGt (subEqWs
          (subGtWsLt (collapseWs html))))))) := utf8Len_strip_le _
    _ ≤ utf8Len (subCharWs ';' (subCharWs '<' (subWsGt (subEqWs
          (subGtWsLt (collapseWs html)))))) := utf8Len_subCharWs_le _ _
    _ ≤ utf8Len (subCharWs '<' (subWsGt (subEqWs (subGtWsLt (collapseWs html))))) :=
          utf8Len_subCharWs_le _ _
    _ ≤ utf8Len (subWsGt (subEqWs (subGtWsLt (collapseWs html)))) := utf8Len_subCharWs_le _ _
    _ ≤ utf8Len (subEqWs (subGtWsLt (collapseWs html))) := utf8Len_subWsGt_le _
    _ ≤ utf8Len (subGtWsLt (collapseWs html)) := utf8Len_subEqWs_le _
    _ ≤ utf8Len (collapseWs html) := utf8Len_subGtWsLt_le _
    _ ≤ utf8Len html := utf8Len_collapseWs_le _

/-! ### Frame lemmas for `str.replace` -/

/-- Whether `t` occurs as a contiguous substring of `s` (the condition under
which Python's `s.replace(t, r)` changes anything). -/
def occursIn (t : List Char) : List Char → Bool
  | [] => t.isEmpty
  | c :: rest => t.isPrefixOf (c :: rest) || occursIn t rest

theorem strReplaceGo_not_occurs {t r : List Char} :
    ∀ (fuel : Nat) (s : List Char), occursIn t s = false → strReplaceGo t r fuel s = s := by
  intro fuel
  induction fuel with
  | zero =>
    intro s _
    cases s <;> rfl
  | succ n ih =>
    intro s h
    cases s with
    | nil => rfl
    | cons c rest =>
      unfold occursIn at h
      rw [Bool.or_eq_false_iff] at h
      simp only [strReplaceGo]
      rw [if_neg (by intro hc; rw [hc.2] at h; simp at h)]
      rw [ih rest h.2]

theorem strReplace_of_not_occurs {s t r : List Char} (h : occursIn t s = false) :
    strReplace s t r = s :=
  strReplaceGo_not_occurs s.length s h

/-- The result of `strReplaceGo` does not depend on the bound as long as the
bound covers the input length. -/
theorem strReplaceGo_fuel {t r : List Char} :
    ∀ (fuel fuel2 : Nat) (s : List Char), s.length ≤ fuel → s.length ≤ fuel2 →
      strReplaceGo t r fuel s = strReplaceGo t r fuel2 s := by
  intro fuel
  induction fuel with
  | zero =>
    intro fuel2 s h1 _
    have hs : s = [] := List.eq_nil_of_length_eq_zero (Nat.le_zero.mp h1)
    subst hs
    cases fuel2 <;> rfl
  | succ n ih =>
    intro fuel2 s h1 h2
    cases s with
    | nil => cases fuel2 <;> rfl
    | cons c rest =>
      cases fuel2 with
      | zero => simp at h2
      | succ m =>
        simp only [strReplaceGo]
        by_cases hp : t ≠ [] ∧ t.isPrefixOf (c :: rest) = true
        · rw [if_pos hp, if_pos hp]
          have ht1 : 0 < t.length := List.length_pos.mpr hp.1
          have hd1 : ((c :: rest).drop t.length).length ≤ n := by
            simp only [List.length_drop, List.length_cons]
            simp only [List.length_cons] at h1
            omega
          have hd2 : ((c :: rest).drop t.length).length ≤ m := by
            simp only [List.length_drop, List.length_cons]
            simp only [List.length_cons] at h2
            omega
          rw [ih m _ hd1 hd2]
        · rw [if_neg hp, if_neg hp]
          have hr1 : rest.length ≤ n := by
            simp only [List.length_cons] at h1
            omega
          have hr2 : rest.length ≤ m := by
            simp only [List.length_cons] at h2
            omega
          rw [ih m rest hr1 hr2]

/-- When the first occurrence of `t` in `a ++ t ++ b` is the explicit one,
`str.replace` keeps `a` intact, substitutes `r` there, and continues on `b`. -/
theorem strReplace_first {t : List Char} (ht : t ≠ []) (r : List Char) :
    ∀ (a b : List Char),
      (∀ a2 : List Char, a2 ≠ [] → a2 <:+ a → t.isPrefixOf (a2 ++ t ++ b) = false) →
      strReplace (a ++ t ++ b) t r = a ++ r ++ strReplace b t r := by
  intro a
  induction a with
  | nil =>
    intro b _
    cases htc : t with
    | nil => exact absurd htc ht
    | cons x t' =>
      subst htc
      unfold strReplace
      rw [List.nil_append, List.nil_append, List.cons_append]
      have hlen : (x :: (t' ++ b)).length = (t' ++ b).length + 1 := by simp
      rw [hlen]
      simp only [strReplaceGo]
      rw [if_pos ⟨by simp, by
        rw [show x :: (t' ++ b) = (x :: t') ++ b by simp]
        exact List.isPrefixOf_iff_prefix.mpr (List.prefix_append _ b)⟩]
      rw [show x :: (t' ++ b) = (x :: t') ++ b by simp, List.drop_left (x :: t') b]
      rw [strReplaceGo_fuel (t' ++ b).length b.length b (by simp) (le_refl _)]
  | cons c a' ih =>
    intro b hno
    have hc : t.isPrefixOf ((c :: a') ++ t ++ b) = false :=
      hno (c :: a') (by simp) (List.suffix_refl _)
    conv_lhs => unfold strReplace
    rw [show (c :: a') ++ t ++ b = c :: (a' ++ t ++ b) by simp]
    have hlen : (c :: (a' ++ t ++ b)).length = (a' ++ t ++ b).length + 1 := by simp
    rw [hlen]
    simp only [strReplaceGo]
    rw [if_neg (by
      intro hcc
      rw [show c :: (a' ++ t ++ b) = (c :: a') ++ t ++ b by simp] at hcc
      rw [hcc.2] at hc
      simp at hc)]
    have hih := ih b (fun a2 hne hsuf => hno a2 hne (hsuf.trans (List.suffix_cons c a')))
    show c :: strReplace (a' ++ t ++ b) t r = (c :: a') ++ r ++ strReplace b t r
    rw [hih]
    simp


/-! ### Remaining support lemmas -/

theorem processLines_id {fuel B : Nat} :
    ∀ {ls : List (List Char)}, (∀ p ∈ ls, processLine fuel B p = some [p]) →
      processLines fuel B ls = some ls := by
  intro ls
  induction ls with
  | nil => intro _; rfl
  | cons p rest ih =>
    intro h
    unfold processLines
    rw [h p (List.mem_cons_self _ _), ih (fun q hq => h q (List.mem_cons_of_mem _ hq))]
    rfl

theorem findCI_spec {pat s : List Char} :
    ∀ {p : Nat}, findCI pat s = some p → matchesCI pat (s.drop p) = true := by
  induction s with
  | nil =>
    intro p h
    unfold findCI at h
    by_cases h1 : matchesCI pat [] = true
    · rw [if_pos h1, Option.some_inj] at h; subst h; exact h1
    · rw [if_neg h1] at h; exact absurd h (by simp)
  | cons c rest ih =>
    intro p h
    unfold findCI at h
    by_cases h1 : matchesCI pat (c :: rest) = true
    · rw [if_pos h1, Option.some_inj] at h; subst h; exact h1
    · rw [if_neg h1] at h
      cases hr : findCI pat rest with
      | none => rw [hr] at h; simp at h
      | some q =>
        rw [hr] at h
        simp only [Option.map_some'] at h
        rw [Option.some_inj] at h
        subst h
        rw [List.drop_succ_cons]
        exact ih hr

theorem matchesCI_length {pat s : List Char} (h : matchesCI pat s = true) :
    pat.length ≤ s.length := by
  unfold matchesCI at h
  rw [beq_iff_eq] at h
  have := congrArg List.length h
  simp only [List.length_map, List.length_take] at this
  omega

/-! ### Claim theorems -/

/-- Claim C1, counterexample: with budget 3 the wrapping entry point emits
the line `<ab>` of 4 UTF-8 bytes — over budget even though the line consists
of four code points, not of a single code point whose encoding exceeds the
budget.  (The chunk check fires on the same iteration that records the `>`
as a safe split point, so the cut lands one byte past the budget.) -/
theorem C1_counterexample :
    insert_line_breaks_for_activecore 64 ("<ab>x".data) 3 = some ("<ab>\nx".data) ∧
    ("<ab>".data) ∈ ("<ab>\nx".data).splitOn '\n' ∧
    utf8Len ("<ab>".data) = 4 ∧ ("<ab>".data).length = 4 := by
  refine ⟨by decide, by decide, by decide, by decide⟩

/-- Claim C1 (amended): for every positive budget, every line emitted by
`insert_line_breaks_for_activecore` has UTF-8 byte length at most
`max_bytes + 1` — one byte more than the claimed bound, attained when a `>`
lands exactly one byte over budget; the claimed single-oversized-code-point
exception never yields an output line at all because the splitter fails to
terminate on such input. -/
theorem C1_wrap_line_bytes {fuel B : Nat} {html out : List Char} (hB : 0 < B)
    (h : insert_line_breaks_for_activecore fuel html B = some out) :
    ∀ q ∈ out.splitOn '\n', utf8Len q ≤ B + 1 :=
  fun q hq => (output_lines h q hq).1

theorem C1_wrap_line_bytes_witness : utf8Len ("<ab>".data) ≤ 3 + 1 :=
  C1_wrap_line_bytes (by decide)
    (show insert_line_breaks_for_activecore 64 ("<ab>x".data) 3 = some ("<ab>\nx".data)
      by decide)
    ("<ab>".data) (by decide)

/-- Claim C2 (code bug): on a line consisting of the single code point
U+1F600 (4 UTF-8 bytes) with budget 3, `split_line_safely` never returns:
the forced-cut branch fires with `i == current_start == 0`, appends the
empty slice `line[0:0]` and leaves the scanner in the same position, so the
loop runs forever no matter how many iterations it is granted — instead of
emitting the oversized code point on its own line as the claim states. -/
theorem C2_split_diverges_on_oversized_codepoint :
    ∀ fuel : Nat, split_line_safely fuel ("😀".data) 3 = none := by
  intro fuel
  show split_line_safely fuel ['😀'] 3 = none
  exact split_line_safely_stuck (by decide) (by decide) (by decide) fuel

/-- Claim C3, counterexample: a budget of 0 is not rejected up front — on the
empty document the entry point returns a normal (empty) result; no
`InvalidBudget` rejection path exists anywhere in the source. -/
theorem C3_counterexample :
    insert_line_breaks_for_activecore 0 [] 0 = some [] := by
  decide

/-- Claim C3 (amended): the entry point performs no budget validation and
uses a non-positive budget as-is: the empty document still yields the empty
output, while a document with any nonempty line drives the splitter into its
non-terminating loop.  The only budget restriction in the repository is the
UI widget's `min_value=100`. -/
theorem C3_no_budget_validation :
    ∀ fuel : Nat,
      insert_line_breaks_for_activecore fuel [] 0 = some [] ∧
      insert_line_breaks_for_activecore fuel ("a".data) 0 = none := by
  intro fuel
  constructor
  · rfl
  · have hs : split_line_safely fuel ['a'] 0 = none :=
      split_line_safely_stuck (by decide) (by decide) (by decide) fuel
    show insert_line_breaks_for_activecore fuel ['a'] 0 = none
    unfold insert_line_breaks_for_activecore
    have h1 : (['a'] : List Char).splitOn '\n' = [['a']] := by decide
    rw [h1]
    unfold processLines
    have h2 : processLine fuel 0 ['a'] = none := by
      unfold processLine
      dsimp only
      rw [if_neg (by decide), if_neg (by decide)]
      show split_line_safely fuel ['a'] 0 = none
      exact hs
    rw [h2]

/-- Claim C4 (code bug): after a cut the scan resumes at the split point and
re-processes the characters between that point and the overflow position, so
a quote character in that range is toggled twice.  In `a>"xy>"e` with budget
3, the `"` at index 2 opens a quote and is then re-scanned (closing it in the
tracker's eyes), so the `>` at index 5 — which lies inside the matching
quoted span from index 2 to index 6 — is recorded as a safe split point and
the boundary after it comes from a safe cut, not from a forced one,
contradicting the function's own docstring (quoted `>` must be ignored). -/
theorem C4_safe_split_inside_quotes :
    split_line_safely 64 ("a>\"xy>\"e".data) 3 =
      some [("a>".data), ("\"xy>".data), ("\"e".data)] := by
  decide

/-- Claim C5, counterexample: the input line `a ` (two bytes, fits the budget
800) is not emitted unchanged — the entry point removes its trailing space
first, so `a ` appears nowhere among the output lines. -/
theorem C5_counterexample :
    insert_line_breaks_for_activecore 0 ("a \nb".data) 800 = some ("a\nb".data) ∧
    utf8Len ("a ".data) ≤ 800 ∧
    ("a ".data) ∉ ("a\nb".data).splitOn '\n' := by
  refine ⟨by decide, by decide, by decide⟩

/-- Claim C5 (amended): after trailing-whitespace removal, every nonempty
input line whose byte length fits the budget appears verbatim among the
output lines, and no two input lines are ever merged — every output line is
a contiguous piece of a single input line. -/
theorem C5_lines_preserved {fuel B : Nat} {html out : List Char}
    (h : insert_line_breaks_for_activecore fuel html B = some out) :
    (∀ l ∈ html.splitOn '\n', rstrip l ≠ [] → utf8Len (rstrip l) ≤ B →
      rstrip l ∈ out.splitOn '\n') ∧
    (∀ q ∈ out.splitOn '\n', ∃ l ∈ html.splitOn '\n', q <:+: l) := by
  obtain ⟨ps, hps, hout⟩ := insert_eq h
  constructor
  · intro l hl hne hfit
    obtain ⟨c, hc, hsub⟩ := processLines_mem_line hps l hl
    have hc2 : c = [rstrip l] := by
      unfold processLine at hc
      dsimp only at hc
      rw [if_neg hne, if_pos hfit] at hc
      exact (Option.some_inj.mp hc).symm
    have hmem : rstrip l ∈ ps := hsub _ (by rw [hc2]; exact List.mem_singleton_self _)
    rw [insert_lines_eq hps hout (by intro hnil; rw [hnil] at hmem; simp at hmem)]
    exact hmem
  · intro q hq
    exact (output_lines h q hq).2

theorem C5_lines_preserved_witness :
    rstrip ("a ".data) ∈ ("a\nb".data).splitOn '\n' :=
  (C5_lines_preserved
    (show insert_line_breaks_for_activecore 0 ("a \nb".data) 800 = some ("a\nb".data)
      by decide)).1 ("a ".data) (by decide) (by decide) (by decide)

/-- Claim C6, counterexample: wrapping `a b` with budget 2 emits the lines
`a ` and `b` (the forced cut lands right after the space); re-applying the
entry point to this output rstrips `a ` to `a`, so the output is not a fixed
point. -/
theorem C6_counterexample :
    insert_line_breaks_for_activecore 64 ("a b".data) 2 = some ("a \nb".data) ∧
    insert_line_breaks_for_activecore 64 ("a \nb".data) 2 = some ("a\nb".data) ∧
    ("a \nb".data) ≠ ("a\nb".data) := by
  refine ⟨by decide, by decide, by decide⟩

/-- Claim C6 (amended): re-applying the entry point to its own output is the
identity provided every output line is nonempty, within budget and has no
trailing whitespace.  In general (see the counterexample) a forced cut can
leave trailing whitespace on an emitted piece, which the second pass strips,
and a safe cut can emit a budget-plus-one-byte line that the second pass
splits further, so wrapping is not idempotent as claimed. -/
theorem C6_idempotent_on_clean_lines {fuel fuel2 B : Nat} {html out : List Char}
    (h : insert_line_breaks_for_activecore fuel html B = some out)
    (hclean : ∀ p ∈ out.splitOn '\n', rstrip p = p ∧ p ≠ [] ∧ utf8Len p ≤ B) :
    insert_line_breaks_for_activecore fuel2 out B = some out := by
  have hpl : ∀ p ∈ out.splitOn '\n', processLine fuel2 B p = some [p] := by
    intro p hp
    obtain ⟨h1, h2, h3⟩ := hclean p hp
    unfold processLine
    dsimp only
    rw [h1, if_neg h2, if_pos h3]
  unfold insert_line_breaks_for_activecore
  rw [processLines_id hpl]
  show some (List.intercalate ['\n'] (out.splitOn '\n')) = some out
  rw [List.intercalate_splitOn out '\n']

theorem C6_idempotent_on_clean_lines_witness :
    insert_line_breaks_for_activecore 0 ("ab".data) 2 = some ("ab".data) :=
  C6_idempotent_on_clean_lines
    (show insert_line_breaks_for_activecore 0 ("ab".data) 2 = some ("ab".data) by decide)
    (by decide)

/-- Claim C7 (code bug): the comment-removal regex of `compress_smart` is the
empty pattern in the source (line 198, `re.sub(r'', '', result, ...)`), which
changes nothing, although the adjacent code comment announces comment
removal.  On the scenario-5 input the plain `<!-- note -->` comment survives
byte-for-byte next to the conditional comment instead of being removed. -/
theorem C7_smart_keeps_plain_comment :
    compress_smart ("<!--[if IE]><p>old</p><![endif]--><!-- note -->".data) =
      ("<!--[if IE]><p>old</p><![endif]--><!-- note -->".data) ∧
    occursIn ("<!-- note -->".data)
      (compress_smart ("<!--[if IE]><p>old</p><![endif]--><!-- note -->".data)) = true := by
  refine ⟨by decide, by decide⟩

/-- Claim C8 (confirmed): Complete-mode compression never increases the
UTF-8 byte length of a document — each of its passes only ever shortens or
preserves the text. -/
theorem C8_compress_complete_never_grows (html : List Char) :
    utf8Len (compress_complete html) ≤ utf8Len html :=
  compress_complete_le html

/-- Claim C9, counterexample: `compress_header_only` replaces, via
`str.replace`, every occurrence of the matched span text, not only the first
span: with two identical head spans the second one is compressed too, so the
text outside the first span (the suffix `Z<head> a</head>`) is not
byte-identical in the output. -/
theorem C9_counterexample :
    compress_header_only ("<head> a</head>Z<head> a</head>".data) =
      ("<head>a</head>Z<head>a</head>".data) ∧
    ("Z<head> a</head>".data).isSuffixOf
      (compress_header_only ("<head> a</head>Z<head> a</head>".data)) = false := by
  refine ⟨by decide, by decide⟩

/-- Claim C9 (amended): without a head span the document is returned
unchanged; with one, the document has every occurrence of the matched span
text replaced by the compressed span, so the parts outside the span are
byte-identical exactly when the matched text occurs only once — at its match
position and nowhere else. -/
theorem C9_header_only_frame :
    ∀ (html a b g0 r : List Char),
      (headMatch html = none → compress_header_only html = html) ∧
      (headMatch html = some (g0, r) → html = a ++ g0 ++ b →
        (∀ a2 : List Char, a2 ≠ [] → a2 <:+ a → g0.isPrefixOf (a2 ++ g0 ++ b) = false) →
        occursIn g0 b = false →
        compress_header_only html = a ++ r ++ b) := by
  intro html a b g0 r
  constructor
  · intro hm
    unfold compress_header_only
    rw [hm]
  · intro hm hsplit hfirst hnob
    have hg0 : g0 ≠ [] := by
      unfold headMatch at hm
      cases h1 : findCI headOpenPat html with
      | none => rw [h1] at hm; simp at hm
      | some p =>
        rw [h1] at hm
        dsimp only at hm
        cases h2 : findCI headClosePat ((html.drop p).drop headOpenPat.length) with
        | none => rw [h2] at hm; simp at hm
        | some d =>
          rw [h2] at hm
          dsimp only at hm
          rw [Option.some_inj, Prod.mk.injEq] at hm
          obtain ⟨hg, _⟩ := hm
          have hlen := matchesCI_length (findCI_spec h1)
          rw [List.length_drop] at hlen
          have h6 : headOpenPat.length = 6 := by decide
          have h7 : headClosePat.length = 7 := by decide
          subst hg
          intro hnil
          have hlen2 := congrArg List.length hnil
          rw [List.length_take, List.length_drop] at hlen2
          simp only [List.length_nil] at hlen2
          rw [Nat.min_eq_zero_iff] at hlen2
          rcases hlen2 with h0 | h0
          · omega
          · omega
    unfold compress_header_only
    rw [hm]
    show strReplace html g0 r = a ++ r ++ b
    rw [hsplit, strReplace_first hg0 r a b hfirst, strReplace_of_not_occurs hnob]

theorem C9_header_only_frame_witness :
    compress_header_only ("<head> a</head>".data) = [] ++ ("<head>a</head>".data) ++ [] :=
  (C9_header_only_frame ("<head> a</head>".data) [] [] ("<head> a</head>".data)
      ("<head>a</head>".data)).2 (by decide) (by decide)
    (by intro a2 hne hsuf; exact absurd (List.suffix_nil.mp hsuf) hne)
    (by decide)

/-- Claim C10 (confirmed): the statistics computation is total for every pair
of documents: the reduction is the (possibly negative) difference of the two
byte sizes, and the percentage is guarded so that an empty original yields 0
rather than a division-by-zero error. -/
theorem C10_ratio_total_guarded (original compressed : List Char) :
    (utf8Len original = 0 → (calculate_compression_ratio original compressed).2.2.2 = 0) ∧
    (calculate_compression_ratio original compressed).2.2.1 =
      (utf8Len original : Int) - (utf8Len compressed : Int) := by
  constructor
  · intro h0
    unfold calculate_compression_ratio
    dsimp only
    rw [if_neg (by omega)]
  · rfl

theorem C10_ratio_total_guarded_witness :
    (calculate_compression_ratio [] ("aa".data)).2.2.2 = 0 ∧
    (calculate_compression_ratio [] ("aa".data)).2.2.1 = -2 := by
  have h := C10_ratio_total_guarded [] ("aa".data)
  exact ⟨h.1 rfl, by rw [h.2]; decide⟩

end HtmlCompressor
